import Mathlib

/-!
Verification of the simulation/render synchronization core of the Permafrost
Engine: the gamestate structure of src/game/gamestate.h (render workspace
double-buffer, faction and diplomacy tables, visibility cache, map snapshot,
deferred deletion queue) and the scripting run-file entry point of
src/script/script.c.

The sampled sources declare the data layout (struct gamestate) but not the
bodies of the operations on it; those operations are modelled from the
design document, as marked on each definition.
-/

namespace Permafrost

/-- A render workspace: a buffer holding one frame of render commands
(struct render_workspace, referenced from src/game/gamestate.h line 123).
The command payload is abstracted as a list of command identifiers. -/
structure render_workspace where
  commands : List Nat

/-- The double-buffer portion of struct gamestate (src/game/gamestate.h
lines 116-123): the field curr_ws_idx indexes into the two-element array ws.
The index is a value in Fin 2 because the array has exactly two elements. -/
structure ws_state where
  curr_ws_idx : Fin 2
  ws : Fin 2 → render_workspace

/-- Modelled from the spec: the swap operation of section 4.5 (its body is
not among the sampled sources; only the curr_ws_idx field and the
two-element ws array are). It toggles the single index that selects the
current workspace. -/
def swap_ws (s : ws_state) : ws_state :=
  { s with curr_ws_idx := 1 - s.curr_ws_idx }

/-- Modelled from the spec: the workspace writable by the simulation thread
is the current one, selected by curr_ws_idx. -/
def sim_writable_idx (s : ws_state) : Fin 2 :=
  s.curr_ws_idx

/-- Modelled from the spec: the workspace readable by the render thread is
the other, previous one. -/
def render_readable_idx (s : ws_state) : Fin 2 :=
  1 - s.curr_ws_idx

/-- C1: the double-buffer has exactly two workspaces selected by a single
index; at every instant the simulation-writable index differs from the
render-readable index and together they cover both workspaces, swap
exchanges the two roles, and two consecutive swaps restore the original
state (swap is an involution on the workspace-index state). -/
theorem swap_involution_ownership (s : ws_state) :
    sim_writable_idx s ≠ render_readable_idx s ∧
    (∀ i : Fin 2, i = sim_writable_idx s ∨ i = render_readable_idx s) ∧
    sim_writable_idx (swap_ws s) = render_readable_idx s ∧
    render_readable_idx (swap_ws s) = sim_writable_idx s ∧
    swap_ws (swap_ws s) = s := by
  obtain ⟨i, w⟩ := s
  fin_cases i <;>
    simp [swap_ws, sim_writable_idx, render_readable_idx] <;> decide

/-- A faction slot (struct faction, declared in faction.h, which is not
among the sampled sources); its contents are abstracted to an identity
payload. -/
structure faction where
  fac_data : Nat
  deriving DecidableEq, Repr

/-- The faction table portion of struct gamestate (src/game/gamestate.h
lines 103-109): the bitmask factions_allocd has a set bit for every
allocated faction index, clear bits are free, next to the fixed-capacity
slot array. The compile-time capacity MAX_FACTIONS is declared in faction.h,
which is not among the sampled sources, so the capacity is a field here. -/
structure faction_table where
  capacity : Nat
  factions_allocd : Nat
  factions : List faction
  deriving DecidableEq, Repr

/-- Result of a faction allocation: either a fresh index or the distinct
capacity-exceeded failure value. -/
inductive alloc_result where
  | ok (id : Nat)
  | capacity_exceeded
  deriving DecidableEq, Repr

/-- Scan of the allocation bitmask: starting at bit position i with rem
positions left to examine, return the first position whose bit is clear. -/
def lcb_from (mask : Nat) : Nat → Nat → Option Nat
  | 0, _ => none
  | rem + 1, i => if !mask.testBit i then some i else lcb_from mask rem (i + 1)

/-- Index of the lowest clear bit of the mask among the first cap bit
positions, if any. -/
def lowest_clear_bit (mask cap : Nat) : Option Nat :=
  lcb_from mask cap 0

/-- Modelled from the spec: allocate scans the allocation bitmask for the
lowest clear bit, sets it, stores the new faction in that slot and returns
that index; it fails with a capacity-exceeded error when no bits are free
(section 4.2; the function body is not among the sampled sources, only the
factions_allocd bitmask layout is). -/
def fac_allocate (t : faction_table) (f : faction) : alloc_result × faction_table :=
  match lowest_clear_bit t.factions_allocd t.capacity with
  | some i =>
      (alloc_result.ok i,
        { t with
          factions_allocd := t.factions_allocd ||| 2 ^ i,
          factions := t.factions.set i f })
  | none => (alloc_result.capacity_exceeded, t)

/-- Modelled from the spec: freeing a faction clears its allocation bit
(section 4.2; the function body is not among the sampled sources). -/
def fac_free (t : faction_table) (i : Nat) : faction_table :=
  if t.factions_allocd.testBit i then
    { t with factions_allocd := t.factions_allocd ^^^ 2 ^ i }
  else t

/-- The empty faction table of a given capacity: no bit set, default slots. -/
def fac_table_empty (cap : Nat) : faction_table :=
  { capacity := cap, factions_allocd := 0, factions := List.replicate cap ⟨0⟩ }

theorem lcb_from_spec (mask : Nat) :
    ∀ rem i j, lcb_from mask rem i = some j →
      i ≤ j ∧ j < i + rem ∧ mask.testBit j = false ∧
      ∀ k, i ≤ k → k < j → mask.testBit k = true := by
  intro rem
  induction rem with
  | zero => intro i j h; simp [lcb_from] at h
  | succ n ih =>
    intro i j h
    by_cases hb : mask.testBit i
    · simp [lcb_from, hb] at h
      obtain ⟨h1, h2, h3, h4⟩ := ih (i + 1) j h
      refine ⟨by omega, by omega, h3, ?_⟩
      intro k hk1 hk2
      rcases Nat.eq_or_lt_of_le hk1 with rfl | hlt
      · exact hb
      · exact h4 k hlt hk2
    · simp [lcb_from, hb] at h
      subst h
      refine ⟨le_refl i, by omega, by simpa using hb, ?_⟩
      intro k hk1 hk2; omega

theorem lcb_from_isSome (mask : Nat) :
    ∀ rem i j, i ≤ j → j < i + rem → mask.testBit j = false →
      (lcb_from mask rem i).isSome := by
  intro rem
  induction rem with
  | zero => intro i j h1 h2 _; omega
  | succ n ih =>
    intro i j h1 h2 hj
    by_cases hb : mask.testBit i
    · have hij : i ≠ j := by
        intro he; rw [he] at hb; rw [hj] at hb; exact Bool.noConfusion hb
      have : (lcb_from mask n (i + 1)).isSome :=
        ih (i + 1) j (by omega) (by omega) hj
      simpa [lcb_from, hb] using this
    · simp [lcb_from, hb]

/-- C2: for every faction-table state with at least one free slot, allocate
returns the index of the lowest clear bit in the allocation bitmask and
sets that bit; and, concretely, from an empty table of capacity 4 four
allocations return the distinct ids 0, 1, 2, 3, a fifth allocation fails
with the capacity error, and after freeing id 1 the next allocation
returns 1. -/
theorem fac_allocate_lowest_clear (t : faction_table) (f : faction)
    (h : ∃ i, i < t.capacity ∧ t.factions_allocd.testBit i = false) :
    (∃ j, j < t.capacity ∧ t.factions_allocd.testBit j = false ∧
        (∀ k, k < j → t.factions_allocd.testBit k = true) ∧
        (fac_allocate t f).1 = alloc_result.ok j ∧
        (fac_allocate t f).2.factions_allocd = t.factions_allocd ||| 2 ^ j) ∧
    ((fac_allocate (fac_table_empty 4) ⟨7⟩).1 = alloc_result.ok 0 ∧
      (fac_allocate (fac_allocate (fac_table_empty 4) ⟨7⟩).2 ⟨8⟩).1 = alloc_result.ok 1 ∧
      (fac_allocate (fac_allocate (fac_allocate (fac_table_empty 4) ⟨7⟩).2 ⟨8⟩).2 ⟨9⟩).1
        = alloc_result.ok 2 ∧
      (fac_allocate (fac_allocate (fac_allocate (fac_allocate
          (fac_table_empty 4) ⟨7⟩).2 ⟨8⟩).2 ⟨9⟩).2 ⟨10⟩).1 = alloc_result.ok 3 ∧
      (fac_allocate (fac_allocate (fac_allocate (fac_allocate (fac_allocate
          (fac_table_empty 4) ⟨7⟩).2 ⟨8⟩).2 ⟨9⟩).2 ⟨10⟩).2 ⟨11⟩).1
        = alloc_result.capacity_exceeded ∧
      (fac_allocate (fac_free (fac_allocate (fac_allocate (fac_allocate (fac_allocate
          (fac_table_empty 4) ⟨7⟩).2 ⟨8⟩).2 ⟨9⟩).2 ⟨10⟩).2 1) ⟨12⟩).1
        = alloc_result.ok 1) := by
  constructor
  · obtain ⟨i, hi, hbit⟩ := h
    have hsome : (lowest_clear_bit t.factions_allocd t.capacity).isSome :=
      lcb_from_isSome t.factions_allocd t.capacity 0 i (Nat.zero_le i) (by omega) hbit
    obtain ⟨j, hj⟩ := Option.isSome_iff_exists.mp hsome
    obtain ⟨_, hjlt, hjbit, hmin⟩ := lcb_from_spec t.factions_allocd t.capacity 0 j hj
    refine ⟨j, by omega, hjbit, fun k hk => hmin k (Nat.zero_le k) hk, ?_, ?_⟩
    · simp [fac_allocate, hj]
    · simp [fac_allocate, hj]
  · exact ⟨by decide, by decide, by decide, by decide, by decide, by decide⟩

/-- Witness for C2 at a concrete table with a free slot. -/
theorem fac_allocate_lowest_clear_witness :
    ∃ j, j < (fac_table_empty 2).capacity ∧
      (fac_table_empty 2).factions_allocd.testBit j = false ∧
      (∀ k, k < j → (fac_table_empty 2).factions_allocd.testBit k = true) ∧
      (fac_allocate (fac_table_empty 2) ⟨5⟩).1 = alloc_result.ok j ∧
      (fac_allocate (fac_table_empty 2) ⟨5⟩).2.factions_allocd
        = (fac_table_empty 2).factions_allocd ||| 2 ^ j :=
  (fac_allocate_lowest_clear (fac_table_empty 2) ⟨5⟩ ⟨0, by decide, by decide⟩).1

/-- C3: when every slot within capacity is allocated, a further allocate
returns the distinct capacity-exceeded failure value, never an ok id, and
leaves the whole faction table (bitmask and every slot) unchanged. -/
theorem fac_allocate_full_unchanged (t : faction_table) (f : faction)
    (h : ∀ i, i < t.capacity → t.factions_allocd.testBit i = true) :
    (fac_allocate t f).1 = alloc_result.capacity_exceeded ∧
    (fac_allocate t f).2 = t ∧
    ∀ id, (fac_allocate t f).1 ≠ alloc_result.ok id := by
  have hnone : lowest_clear_bit t.factions_allocd t.capacity = none := by
    cases hc : lowest_clear_bit t.factions_allocd t.capacity with
    | none => rfl
    | some j =>
      obtain ⟨_, hjlt, hjbit, _⟩ := lcb_from_spec t.factions_allocd t.capacity 0 j hc
      have := h j (by omega)
      rw [this] at hjbit
      exact Bool.noConfusion hjbit
  refine ⟨?_, ?_, ?_⟩
  · simp [fac_allocate, hnone]
  · simp [fac_allocate, hnone]
  · intro id; simp [fac_allocate, hnone]

/-- Witness for C3 at a concrete full table of capacity 2. -/
theorem fac_allocate_full_unchanged_witness :
    (fac_allocate ⟨2, 3, [⟨1⟩, ⟨2⟩]⟩ ⟨9⟩).1 = alloc_result.capacity_exceeded ∧
    (fac_allocate ⟨2, 3, [⟨1⟩, ⟨2⟩]⟩ ⟨9⟩).2 = ⟨2, 3, [⟨1⟩, ⟨2⟩]⟩ ∧
    ∀ id, (fac_allocate ⟨2, 3, [⟨1⟩, ⟨2⟩]⟩ ⟨9⟩).1 ≠ alloc_result.ok id :=
  fac_allocate_full_unchanged ⟨2, 3, [⟨1⟩, ⟨2⟩]⟩ ⟨9⟩ (by decide)

theorem fac_allocate_ok_mask (t : faction_table) (f : faction) (j : Nat)
    (h : (fac_allocate t f).1 = alloc_result.ok j) :
    t.factions_allocd.testBit j = false ∧
    (fac_allocate t f).2.factions_allocd = t.factions_allocd ||| 2 ^ j := by
  cases hc : lowest_clear_bit t.factions_allocd t.capacity with
  | none => simp [fac_allocate, hc] at h
  | some i =>
    simp [fac_allocate, hc] at h
    subst h
    obtain ⟨_, _, hbit, _⟩ := lcb_from_spec t.factions_allocd t.capacity 0 i hc
    exact ⟨hbit, by simp [fac_allocate, hc]⟩

theorem fac_allocate_err_mask (t : faction_table) (f : faction)
    (h : (fac_allocate t f).1 = alloc_result.capacity_exceeded) :
    (fac_allocate t f).2 = t := by
  cases hc : lowest_clear_bit t.factions_allocd t.capacity with
  | none => simp [fac_allocate, hc]
  | some i => simp [fac_allocate, hc] at h

/-- One step of simulation activity on the faction table: an allocation or
the release of a given index. -/
inductive fac_op where
  | alloc (f : faction)
  | release (i : Nat)
  deriving DecidableEq, Repr

/-- Runs a sequence of allocate and free calls on the faction table. -/
def fac_run (t : faction_table) : List fac_op → faction_table
  | [] => t
  | fac_op.alloc f :: rest => fac_run (fac_allocate t f).2 rest
  | fac_op.release i :: rest => fac_run (fac_free t i) rest

/-- The set of indices allocated and not yet freed along a run: each
successful allocation adds the returned id and each free removes its
index. -/
def fac_live (t : faction_table) (s : Finset Nat) : List fac_op → Finset Nat
  | [] => s
  | fac_op.alloc f :: rest =>
    match fac_allocate t f with
    | (alloc_result.ok i, t2) => fac_live t2 (insert i s) rest
    | (alloc_result.capacity_exceeded, t2) => fac_live t2 s rest
  | fac_op.release i :: rest => fac_live (fac_free t i) (s.erase i) rest

/-- Checks along a run that no successful allocation ever returned an index
whose allocation bit was already set at the time of the call. -/
def fac_allocs_fresh (t : faction_table) : List fac_op → Bool
  | [] => true
  | fac_op.alloc f :: rest =>
    match fac_allocate t f with
    | (alloc_result.ok i, t2) => !t.factions_allocd.testBit i && fac_allocs_fresh t2 rest
    | (alloc_result.capacity_exceeded, t2) => fac_allocs_fresh t2 rest
  | fac_op.release i :: rest => fac_allocs_fresh (fac_free t i) rest

theorem fac_free_testBit (t : faction_table) (i k : Nat) :
    (fac_free t i).factions_allocd.testBit k =
      if k = i then false else t.factions_allocd.testBit k := by
  by_cases hb : t.factions_allocd.testBit i
  · by_cases hk : k = i
    · subst hk
      simp [fac_free, hb, Nat.testBit_xor, Nat.testBit_two_pow_self]
    · simp [fac_free, hb, hk, Nat.testBit_xor,
        Nat.testBit_two_pow_of_ne (fun he => hk he.symm)]
  · by_cases hk : k = i
    · subst hk
      simp [fac_free, hb]
    · simp [fac_free, hb, hk]

theorem fac_run_inv (ops : List fac_op) :
    ∀ t : faction_table, ∀ s : Finset Nat,
      (∀ i, t.factions_allocd.testBit i = true ↔ i ∈ s) →
      (∀ i, (fac_run t ops).factions_allocd.testBit i = true ↔
          i ∈ fac_live t s ops) ∧
      fac_allocs_fresh t ops = true := by
  induction ops with
  | nil => intro t s hinv; exact ⟨hinv, rfl⟩
  | cons op rest ih =>
    intro t s hinv
    cases op with
    | alloc f =>
      rcases hall : fac_allocate t f with ⟨r, t2⟩
      have hres1 : (fac_allocate t f).1 = r := by rw [hall]
      have hres2 : (fac_allocate t f).2 = t2 := by rw [hall]
      cases r with
      | ok j =>
        obtain ⟨hjbit, hmask⟩ := fac_allocate_ok_mask t f j hres1
        rw [hres2] at hmask
        have hinv2 : ∀ i, t2.factions_allocd.testBit i = true ↔
            i ∈ insert j s := by
          intro i
          rw [hmask, Nat.testBit_lor]
          by_cases hij : i = j
          · subst hij
            simp [Nat.testBit_two_pow_self]
          · simp [Nat.testBit_two_pow_of_ne (fun he => hij he.symm), hij, hinv i]
        obtain ⟨h1, h2⟩ := ih t2 (insert j s) hinv2
        constructor
        · intro i
          simp only [fac_run, fac_live, hres2, hall, h1 i]
        · simp only [fac_allocs_fresh, hall]
          simp [hjbit, h2]
      | capacity_exceeded =>
        have hsame := fac_allocate_err_mask t f hres1
        rw [hres2] at hsame
        subst hsame
        obtain ⟨h1, h2⟩ := ih t2 s hinv
        constructor
        · intro i
          simp only [fac_run, fac_live, hres2, hall, h1 i]
        · simp only [fac_allocs_fresh, hall]
          exact h2
    | release i =>
      have hinv2 : ∀ k, (fac_free t i).factions_allocd.testBit k = true ↔
          k ∈ s.erase i := by
        intro k
        rw [fac_free_testBit]
        by_cases hk : k = i
        · subst hk; simp
        · simp [hk, hinv k]
      obtain ⟨h1, h2⟩ := ih (fac_free t i) (s.erase i) hinv2
      exact ⟨h1, h2⟩

/-- C4: for every finite sequence of allocate and free calls starting from
the empty faction table, the allocation bitmask afterwards has exactly the
bits set that correspond to slots allocated and not yet freed, and no
allocate call in the sequence returns an index whose bit was set at the
time of the call. -/
theorem fac_run_bitmask_exact (cap : Nat) (ops : List fac_op) :
    (∀ i, (fac_run (fac_table_empty cap) ops).factions_allocd.testBit i = true ↔
        i ∈ fac_live (fac_table_empty cap) ∅ ops) ∧
    fac_allocs_fresh (fac_table_empty cap) ops = true :=
  fac_run_inv ops (fac_table_empty cap) ∅ (by
    intro i
    simp [fac_table_empty, Nat.zero_testBit])

/-- The diplomatic relation between two factions (enum diplomacy_state,
declared in public/game.h, which is not among the sampled sources; the
design document names war and peace like states). -/
inductive diplomacy_state where
  | neutral
  | peace
  | war
  deriving DecidableEq, Repr

/-- The diplomacy table of struct gamestate (src/game/gamestate.h lines
110-115): the relation between every two faction indices, as a square
matrix. -/
abbrev diplomacy_table := Nat → Nat → diplomacy_state

/-- Modelled from the spec: set_relation writes both the (a, b) and the
(b, a) cells as one logical update (section 4.2; the function body is not
among the sampled sources, only the diplomacy_table layout is). -/
def set_relation (d : diplomacy_table) (a b : Nat) (st : diplomacy_state) :
    diplomacy_table :=
  fun i j => if (i = a ∧ j = b) ∨ (i = b ∧ j = a) then st else d i j

/-- Modelled from the spec: get_relation reads one cell of the matrix. -/
def get_relation (d : diplomacy_table) (a b : Nat) : diplomacy_state :=
  d a b

/-- The initial diplomacy table: every pair of factions neutral. -/
def diplo_init : diplomacy_table :=
  fun _ _ => diplomacy_state.neutral

/-- Runs a sequence of set_relation calls on the diplomacy table. -/
def diplo_run (d : diplomacy_table) :
    List (Nat × Nat × diplomacy_state) → diplomacy_table
  | [] => d
  | (a, b, st) :: rest => diplo_run (set_relation d a b st) rest

theorem set_relation_symm (d : diplomacy_table) (a b : Nat)
    (st : diplomacy_state) (hd : ∀ i j, d i j = d j i) :
    ∀ i j, set_relation d a b st i j = set_relation d a b st j i := by
  intro i j
  unfold set_relation
  by_cases h1 : (i = a ∧ j = b) ∨ (i = b ∧ j = a)
  · have h2 : (j = a ∧ i = b) ∨ (j = b ∧ i = a) := by tauto
    simp [h1, h2]
  · have h2 : ¬ ((j = a ∧ i = b) ∨ (j = b ∧ i = a)) := by tauto
    simp [h1, h2, hd i j]

theorem diplo_run_symm (calls : List (Nat × Nat × diplomacy_state)) :
    ∀ d : diplomacy_table, (∀ i j, d i j = d j i) →
      ∀ i j, diplo_run d calls i j = diplo_run d calls j i := by
  induction calls with
  | nil => intro d hd; exact hd
  | cons c rest ih =>
    intro d hd
    obtain ⟨a, b, st⟩ := c
    exact ih (set_relation d a b st) (set_relation_symm d a b st hd)

/-- C5: after every sequence of set_relation calls starting from the
initial diplomacy table, the matrix is symmetric, so get_relation gives the
same answer for (A, B) and (B, A); concretely, setting the relation of
factions 0 and 2 to war makes a read of (2, 0) return war, because
set_relation writes both cells as one logical update. -/
theorem diplo_symmetric_after (calls : List (Nat × Nat × diplomacy_state))
    (A B : Nat) :
    get_relation (diplo_run diplo_init calls) A B
      = get_relation (diplo_run diplo_init calls) B A ∧
    get_relation (set_relation diplo_init 0 2 diplomacy_state.war) 2 0
      = diplomacy_state.war := by
  constructor
  · exact diplo_run_symm calls diplo_init (fun _ _ => rfl) A B
  · simp [get_relation, set_relation]

/-- An oriented bounding box, abstracted to an identity payload (struct
obb of the physics collaborator; its geometry is not among the sampled
sources). -/
structure obb_t where
  obb_data : Nat
  deriving DecidableEq, Repr

/-- A game entity: a stable identity together with its current-frame
bounding volume (struct entity, referenced from src/game/gamestate.h). -/
structure entity where
  uid : Nat
  ent_obb : obb_t
  deriving DecidableEq, Repr

/-- Modelled from the spec: a camera, reduced to the only capability the
visibility pass uses, the bounding-volume-against-frustum test (section
4.3; frustum math is out of scope of the core). -/
structure camera where
  in_frustum : obb_t → Bool

/-- Modelled from the spec: the light source, reduced to the test of a
bounding volume against the light view volume (section 4.3). -/
structure light_source where
  in_light_volume : obb_t → Bool

/-- The visibility cache of struct gamestate (src/game/gamestate.h lines
86-102): the fields visible, light_visible and visible_obbs. -/
structure vis_result where
  camera_visible : List entity
  light_visible : List entity
  visible_obbs : List obb_t
  deriving DecidableEq, Repr

/-- Modelled from the spec: recompute fully replaces the visibility sets
each tick by scanning the registry, testing each entity against the camera
frustum and independently against the light view volume, and producing the
OBB cache as a byproduct of the camera pass, index-parallel with it
(section 4.3; the function body is not among the sampled sources, only the
cache layout is). -/
def vis_recompute (registry : List entity) (cam : camera)
    (light : light_source) : vis_result :=
  { camera_visible := registry.filter (fun e => cam.in_frustum e.ent_obb)
    light_visible := registry.filter (fun e => light.in_light_volume e.ent_obb)
    visible_obbs :=
      (registry.filter (fun e => cam.in_frustum e.ent_obb)).map
        (fun e => e.ent_obb) }

/-- C6: after recompute, every entity of camera_visible passes the camera
frustum test and every entity of light_visible passes the light view
volume test; the OBB cache has exactly the length of camera_visible, and
its element at every index is the bounding box of the camera-visible entity
at the same index. -/
theorem vis_recompute_correct (registry : List entity) (cam : camera)
    (light : light_source) :
    (∀ e, e ∈ (vis_recompute registry cam light).camera_visible →
        cam.in_frustum e.ent_obb = true) ∧
    (∀ e, e ∈ (vis_recompute registry cam light).light_visible →
        light.in_light_volume e.ent_obb = true) ∧
    (vis_recompute registry cam light).visible_obbs.length
      = (vis_recompute registry cam light).camera_visible.length ∧
    ∀ i : Nat, (vis_recompute registry cam light).visible_obbs[i]?
      = ((vis_recompute registry cam light).camera_visible[i]?).map
          (fun e : entity => e.ent_obb) := by
  refine ⟨?_, ?_, ?_, ?_⟩
  · intro e he
    exact (List.mem_filter.mp he).2
  · intro e he
    exact (List.mem_filter.mp he).2
  · simp [vis_recompute]
  · intro i
    simp [vis_recompute]

/-- Witness for C6: a concrete registry whose single entity is camera
visible indeed passes the concrete frustum test. -/
theorem vis_recompute_correct_witness :
    camera.in_frustum ⟨fun _ => true⟩ (entity.ent_obb ⟨0, ⟨5⟩⟩) = true :=
  (vis_recompute_correct [⟨0, ⟨5⟩⟩] ⟨fun _ => true⟩ ⟨fun _ => false⟩).1
    ⟨0, ⟨5⟩⟩ (by simp [vis_recompute])

/-- The deferred deletion queue of struct gamestate (src/game/gamestate.h
lines 131-136, field deleted): entities scheduled for deletion, each
recorded with the simulation tick during which it was enqueued. -/
structure del_queue where
  pending : List (Nat × Nat)
  deriving DecidableEq, Repr

/-- Modelled from the spec: enqueue records an entity leaving the live sets
together with the tick of its removal (section 4.6; the function body is
not among the sampled sources, only the queue field is). -/
def del_enqueue (q : del_queue) (e : Nat) (tick : Nat) : del_queue :=
  { pending := q.pending ++ [(e, tick)] }

/-- Modelled from the spec: drain physically destroys exactly the pending
entities whose enqueue tick the render thread has acknowledged as fully
consumed; acked is the latest acknowledged tick, none before any
acknowledgment (section 4.6). It returns the destroyed entries and the
remaining queue. -/
def del_drain (q : del_queue) (acked : Option Nat) :
    List (Nat × Nat) × del_queue :=
  match acked with
  | none => ([], q)
  | some a =>
    (q.pending.filter (fun p => decide (p.2 ≤ a)),
      { pending := q.pending.filter (fun p => decide (a < p.2)) })

/-- C7: an entity enqueued for deletion during tick N is never destroyed by
a drain whose render acknowledgment does not yet cover tick N, and a drain
before any acknowledgment destroys nothing; a drain after acknowledgment
of tick a destroys exactly the entries enqueued at ticks up to a and keeps
exactly the later ones; concretely, an entity enqueued at tick 10 is not
destroyed by a drain before the acknowledgment and is destroyed by a drain
after it. -/
theorem del_drain_correct (q : del_queue) (e N a : Nat) :
    ((e, N) ∈ q.pending → a < N → (e, N) ∉ (del_drain q (some a)).1) ∧
    (del_drain q none).1 = [] ∧
    ((e, N) ∈ (del_drain q (some a)).1 ↔ (e, N) ∈ q.pending ∧ N ≤ a) ∧
    ((e, N) ∈ (del_drain q (some a)).2.pending ↔
      (e, N) ∈ q.pending ∧ a < N) ∧
    ((del_drain (del_enqueue ⟨[]⟩ 42 10) none).1 = [] ∧
      (42, 10) ∈ (del_drain (del_enqueue ⟨[]⟩ 42 10) (some 10)).1) := by
  refine ⟨?_, rfl, ?_, ?_, by decide, by decide⟩
  · intro hmem hlt hin
    simp [del_drain, List.mem_filter] at hin
    omega
  · simp [del_drain, List.mem_filter]
  · simp [del_drain, List.mem_filter]

/-- Witness for C7: a concrete entry enqueued at tick 5 is not destroyed by
a drain acknowledging only tick 4. -/
theorem del_drain_correct_witness :
    (1, 5) ∉ (del_drain ⟨[(1, 5)]⟩ (some 4)).1 :=
  (del_drain_correct ⟨[(1, 5)]⟩ 1 5 4).1 (by decide) (by decide)

/-- The map data needed for the geometric queries of the render thread:
bounds and per-point heights (struct map, referenced from
src/game/gamestate.h lines 57-61; its definition is not among the sampled
sources). -/
structure map_t where
  map_width : Nat
  map_height : Nat
  heights : List (List Int)
  deriving DecidableEq, Repr

/-- The bounds query on a map. -/
def map_bounds (m : map_t) : Nat × Nat :=
  (m.map_width, m.map_height)

/-- The height-at-point query on a map. -/
def height_at (m : map_t) (r c : Nat) : Int :=
  (m.heights.getD r []).getD c 0

/-- The map portion of struct gamestate (src/game/gamestate.h lines 57-61
and 124-130): the currently loaded map, which may be NULL, and the
read-only snapshot of the map from the previous simulation tick. -/
structure map_state where
  live_map : Option map_t
  prev_tick_map : Option map_t
  deriving DecidableEq, Repr

/-- Modelled from the spec: publish takes a read-only copy by value of the
currently loaded map as the snapshot of the tick (section 4.4; the function
body is not among the sampled sources, only the prev_tick_map field is).
An absent map publishes an absent snapshot rather than failing. -/
def publish_snapshot (g : map_state) : map_state :=
  { g with prev_tick_map := g.live_map }

/-- Modelled from the spec: a simulation mutation of the live map in a
later tick touches only the live map, never the published snapshot
(sections 3 and 4.4). -/
def mutate_live_map (g : map_state) (f : map_t → map_t) : map_state :=
  { g with live_map := g.live_map.map f }

/-- Runs a sequence of live-map mutations. -/
def run_mutations (g : map_state) : List (map_t → map_t) → map_state
  | [] => g
  | f :: rest => run_mutations (mutate_live_map g f) rest

/-- Modelled from the spec: the per-tick visibility update degrades to
empty results when no map is loaded or no camera is active, rather than
failing (section 7 item c). -/
def g_update_visibility (m : Option map_t) (cam : Option camera)
    (light : light_source) (registry : List entity) : vis_result :=
  match m, cam with
  | some _, some c => vis_recompute registry c light
  | _, _ => { camera_visible := [], light_visible := [], visible_obbs := [] }

/-- C8: with no map loaded or no active camera, the visibility update
returns entirely empty visibility sets and the snapshot publish returns an
absent snapshot; both are ordinary total results, not failures. -/
theorem no_map_or_camera_empty (m : Option map_t) (cam : Option camera)
    (light : light_source) (registry : List entity) (p : Option map_t) :
    g_update_visibility none cam light registry
      = { camera_visible := [], light_visible := [], visible_obbs := [] } ∧
    g_update_visibility m none light registry
      = { camera_visible := [], light_visible := [], visible_obbs := [] } ∧
    (publish_snapshot { live_map := none, prev_tick_map := p }).prev_tick_map
      = none := by
  refine ⟨rfl, ?_, rfl⟩
  cases m <;> rfl

theorem run_mutations_prev (fs : List (map_t → map_t)) :
    ∀ g : map_state, (run_mutations g fs).prev_tick_map = g.prev_tick_map := by
  induction fs with
  | nil => intro g; rfl
  | cons f rest ih =>
    intro g
    simp only [run_mutations]
    rw [ih (mutate_live_map g f)]
    rfl

/-- C9: the snapshot published by publish never changes afterwards: after
any sequence of live-map mutations in later ticks, the snapshot and hence
its bounds and height-at-point answers are identical to what they were the
moment publish returned. -/
theorem snapshot_immutable_after_publish (g : map_state)
    (fs : List (map_t → map_t)) (r c : Nat) :
    (run_mutations (publish_snapshot g) fs).prev_tick_map
      = (publish_snapshot g).prev_tick_map ∧
    (run_mutations (publish_snapshot g) fs).prev_tick_map.map map_bounds
      = (publish_snapshot g).prev_tick_map.map map_bounds ∧
    (run_mutations (publish_snapshot g) fs).prev_tick_map.map
        (fun m => height_at m r c)
      = (publish_snapshot g).prev_tick_map.map (fun m => height_at m r c) := by
  refine ⟨run_mutations_prev fs (publish_snapshot g), ?_, ?_⟩ <;>
    rw [run_mutations_prev fs (publish_snapshot g)]

/-- A C stdio stream as seen by the scripting entry point: possibly NULL,
otherwise carrying contents and readability. -/
inductive file_stream where
  | null
  | handle (contents : List Nat) (readable : Bool)
  deriving DecidableEq, Repr

/-- Shallow embedding of S_RunFile from src/script/script.c lines 18-21:
the body ignores its stream argument entirely and returns true. -/
def S_RunFile (_stream : file_stream) : Bool :=
  true

/-- C10: S_RunFile returns true for every input stream, including the NULL
stream and unreadable streams, and its result does not depend on the stream
in any way, so the scripting run-file entry point unconditionally reports
success. -/
theorem S_RunFile_always_true (s : file_stream) :
    S_RunFile s = true ∧
    S_RunFile s = S_RunFile file_stream.null ∧
    ∀ s2 : file_stream, S_RunFile s = S_RunFile s2 := by
  exact ⟨rfl, rfl, fun _ => rfl⟩

end Permafrost
